import Mathlib

/-!
Verification of the CPU scheduling simulator core (src/src/App.tsx).

The embedding translates the scheduling decision engine and the
step-simulation state machine:
  * `SchedulingAlgorithms.selectNext`  (App.tsx lines 43-97),
  * `executeSimulationStep`            (App.tsx lines 130-293),
  * the auto-run driver protocol       (App.tsx lines 405-435):
    decrement the running process's remaining time, then advance.

JavaScript numbers holding times, ids, bursts and priorities are modelled
as `Nat` (the UI enforces non-negative integers; the driver clamps the
remaining-time decrement at 0 with `Math.max`, which `Nat` subtraction
matches).  The HRN response ratio, a floating-point quotient in the
source, is modelled as an exact rational `Rat`.  `Array.prototype.sort`
is stable (ES2019), so the comparator-based sorts are embedded as a
stable insertion sort driven by `le a b := (comparator a b ≤ 0)`.
-/

/-- Record mirroring the `Process` interface (App.tsx lines 5-13). -/
structure Process where
  id : Nat
  name : String
  arrival : Nat
  burst : Nat
  priority : Nat
  remaining : Nat
  color : String
deriving Repr, DecidableEq

/-- Record mirroring the `GanttEntry` interface (App.tsx lines 15-20).
The source field `end` is a Lean keyword and is rendered here as `stop`. -/
structure GanttEntry where
  process : String
  start : Nat
  stop : Nat
  color : String
deriving Repr, DecidableEq

/-- Record mirroring the `SimulationState` interface (App.tsx lines 22-30). -/
structure SimulationState where
  currentTime : Nat
  ganttChart : List GanttEntry
  currentProcess : Option Process
  readyQueue : List Process
  completedProcesses : List Nat
  quantumRemaining : Nat
  isRunning : Bool
deriving Repr, DecidableEq

/-- Stable insertion of an element into a sorted list: `x` is placed before
the first element `y` with `le x y`; on comparator ties (`le x y` and
`le y x`) the earlier-arriving element of the original list stays first,
matching the stability guarantee of ES2019 `Array.prototype.sort`. -/
def insertLe (le : Process → Process → Bool) (x : Process) : List Process → List Process
  | [] => [x]
  | y :: ys => if le x y then x :: y :: ys else y :: insertLe le x ys

/-- Stable sort by a boolean comparator-derived order, modelling
`Array.prototype.sort(comparator)` where `le a b ↔ comparator a b ≤ 0`. -/
def stableSort (le : Process → Process → Bool) : List Process → List Process
  | [] => []
  | x :: xs => insertLe le x (stableSort le xs)

/-- FCFS comparator (App.tsx lines 55-57): arrival ascending, ties by id. -/
def fcfsLe (a b : Process) : Bool :=
  if a.arrival == b.arrival then a.id ≤ b.id else a.arrival ≤ b.arrival

/-- SJF comparator (App.tsx lines 60-62): burst ascending, ties by arrival. -/
def sjfLe (a b : Process) : Bool :=
  if a.burst == b.burst then a.arrival ≤ b.arrival else a.burst ≤ b.burst

/-- SRT comparator (App.tsx lines 65-69): the snapshot's `remaining` field
ascending, ties by arrival. -/
def srtLe (a b : Process) : Bool :=
  if a.remaining == b.remaining then a.arrival ≤ b.arrival else a.remaining ≤ b.remaining

/-- Priority comparator (App.tsx lines 72-76): priority value ascending
(lower value is more urgent), ties by arrival. -/
def priorityLe (a b : Process) : Bool :=
  if a.priority == b.priority then a.arrival ≤ b.arrival else a.priority ≤ b.priority

/-- HRN response ratio (App.tsx lines 80-81):
`(max 0 (currentTime - arrival) + burst) / burst`, exact rational. -/
def responseRatio (currentTime : Nat) (p : Process) : Rat :=
  (((currentTime - p.arrival : Nat) : Rat) + (p.burst : Rat)) / (p.burst : Rat)

/-- Absolute value on `Rat`, mirroring `Math.abs`. -/
def ratAbs (x : Rat) : Rat := if x < 0 then -x else x

/-- HRN comparator (App.tsx lines 84-88): ratios within 0.001 of each other
tie-break by arrival ascending; otherwise response ratio descending.  The
source precomputes each element's ratio in a mapped copy; since the ratio
is a pure function of the element and `currentTime`, comparing recomputed
ratios is the same relation. -/
def hrnLe (currentTime : Nat) (a b : Process) : Bool :=
  if ratAbs (responseRatio currentTime a - responseRatio currentTime b) < 1 / 1000 then
    a.arrival ≤ b.arrival
  else
    responseRatio currentTime b ≤ responseRatio currentTime a

/-- Name of the FCFS algorithm case. -/
def algFCFS : String := "FCFS"

/-- Name of the SJF algorithm case. -/
def algSJF : String := "SJF"

/-- Name of the SRT algorithm case. -/
def algSRT : String := "SRT"

/-- Name of the Priority algorithm case. -/
def algPriority : String := "Priority"

/-- Name of the HRN algorithm case. -/
def algHRN : String := "HRN"

/-- Name of the RR algorithm case. -/
def algRR : String := "RR"

/-- Names of the six algorithm cases of the `switch` in `selectNext`. -/
def knownAlgorithms : List String := [algFCFS, algSJF, algSRT, algPriority, algHRN, algRR]

namespace SchedulingAlgorithms

/-- Embedding of `SchedulingAlgorithms.selectNext` (App.tsx lines 44-96):
returns `none` on an empty candidate list, otherwise the head of the
stable sort of a defensive copy under the per-algorithm comparator; the
`RR` case and the `default` case return the unsorted head. -/
def selectNext (processes : List Process) (currentTime : Nat) (algorithm : String) :
    Option Process :=
  if processes = [] then none
  else
    let sortedProcesses := processes
    if algorithm == "FCFS" then (stableSort fcfsLe sortedProcesses).head?
    else if algorithm == "SJF" then (stableSort sjfLe sortedProcesses).head?
    else if algorithm == "SRT" then (stableSort srtLe sortedProcesses).head?
    else if algorithm == "Priority" then (stableSort priorityLe sortedProcesses).head?
    else if algorithm == "HRN" then (stableSort (hrnLe currentTime) sortedProcesses).head?
    else if algorithm == "RR" then sortedProcesses.head?
    else sortedProcesses.head?

end SchedulingAlgorithms

/-- Loop body of the arrival admission `forEach` (App.tsx lines 161-165):
push a snapshot unless an entry with the same id is already queued. -/
def pushIfAbsent (q : List Process) (p : Process) : List Process :=
  if q.any fun rp => rp.id == p.id then q else q ++ [p]

/-- Arrival admission (App.tsx lines 152-165): every process whose arrival
equals the current time, is not completed and has remaining time left is
appended to the ready queue unless an entry with its id is already there. -/
def admitArrivals (processes : List Process) (currentTime : Nat)
    (completedProcesses : List Nat) (readyQueue : List Process) : List Process :=
  (processes.filter fun p =>
      p.arrival == currentTime && !(completedProcesses.contains p.id) &&
        decide (0 < p.remaining)).foldl pushIfAbsent readyQueue

/-- Completion retirement (App.tsx lines 171-182): when the current process's
live entry in `processes` has remaining 0, its id joins the completed set,
it is filtered out of the ready queue, the current slot is cleared and the
quantum is reset to 0.  Returns
(current, quantumRemaining, completed, readyQueue). -/
def retireCurrent (processes : List Process) (cur : Option Process)
    (quantumRemaining : Nat) (completedProcesses : List Nat) (readyQueue : List Process) :
    Option Process × Nat × List Nat × List Process :=
  match cur with
  | none => (none, quantumRemaining, completedProcesses, readyQueue)
  | some c =>
    match processes.find? fun p => p.id == c.id with
    | some cp =>
      if cp.remaining == 0 then
        (none, 0, completedProcesses ++ [c.id], readyQueue.filter fun p => !(p.id == c.id))
      else (some c, quantumRemaining, completedProcesses, readyQueue)
    | none => (some c, quantumRemaining, completedProcesses, readyQueue)

/-- Tail re-queueing of the evicted RR process (App.tsx lines 192-197): the
snapshot refreshed from `processes` is appended when its live remaining is
positive. -/
def rrRequeue (processes : List Process) (c : Process) (q : List Process) : List Process :=
  match processes.find? fun p => p.id == c.id with
  | some cp => if decide (0 < cp.remaining) then q ++ [cp] else q
  | none => q

/-- Round-Robin quantum expiry (App.tsx lines 184-199): under RR, with a
current process, the *prior state's* quantum remaining equal to 0 and more
than one queued process, the current process is evicted to the tail of the
queue (refreshed from `processes`, only if its live remaining is positive)
and the current slot is cleared. -/
def rrExpire (processes : List Process) (algorithm : String) (quantumRemainingOld : Nat)
    (cur : Option Process) (readyQueue : List Process) : Option Process × List Process :=
  match cur with
  | none => (none, readyQueue)
  | some c =>
    if algorithm == "RR" && quantumRemainingOld == 0 && decide (1 < readyQueue.length) then
      (none, rrRequeue processes c (readyQueue.filter fun p => !(p.id == c.id)))
    else (some c, readyQueue)

/-- Eligible candidates (App.tsx lines 207-212): queue members whose live
remaining time looked up in `processes` is positive and whose id is not in
the completed set. -/
def availableOf (processes : List Process) (completedProcesses : List Nat)
    (readyQueue : List Process) : List Process :=
  readyQueue.filter fun p =>
    (match processes.find? fun ps => ps.id == p.id with
     | some ps => decide (0 < ps.remaining)
     | none => false) && !(completedProcesses.contains p.id)

/-- Non-preemptive keep condition (App.tsx lines 222-228): an existing
current process is kept when the selector picked a different process and
the algorithm is neither SRT nor RR. -/
def selKeep (cur nextSelected : Option Process) (algorithm : String) : Bool :=
  match cur, nextSelected with
  | some c, some n => decide (c.id ≠ n.id) && !(algorithm == "SRT") && !(algorithm == "RR")
  | _, _ => false

/-- Quantum reset on assignment (App.tsx lines 232-234): an RR assignment of
a (possibly new) current process resets the quantum. -/
def selQr (nextSelected : Option Process) (algorithm : String) (quantum qr : Nat) : Nat :=
  match nextSelected with
  | some _ => if algorithm == "RR" then quantum else qr
  | none => qr

/-- Next-process selection (App.tsx lines 201-237): runs when the slot is
empty or the algorithm is preemptive (SRT, RR); non-preemptive algorithms
keep an existing current process when the selector picks someone else; an
RR assignment resets the quantum. -/
def selectPhase (processes : List Process) (algorithm : String) (quantum : Nat)
    (currentTime : Nat) (cur : Option Process) (qr : Nat)
    (completedProcesses : List Nat) (readyQueue : List Process) : Option Process × Nat :=
  if cur.isNone || (cur.isSome && (algorithm == "SRT" || algorithm == "RR")) then
    if 0 < (availableOf processes completedProcesses readyQueue).length then
      if selKeep cur
          (SchedulingAlgorithms.selectNext (availableOf processes completedProcesses readyQueue)
            currentTime algorithm) algorithm then
        (cur, qr)
      else
        (SchedulingAlgorithms.selectNext (availableOf processes completedProcesses readyQueue)
          currentTime algorithm,
         selQr
          (SchedulingAlgorithms.selectNext (availableOf processes completedProcesses readyQueue)
            currentTime algorithm) algorithm quantum qr)
    else (cur, qr)
  else (cur, qr)

/-- Occupant label of the idle segments. -/
def idleName : String := "IDLE"

/-- Display color of the idle segments. -/
def idleColor : String := "#E5E7EB"

/-- Append-or-coalesce of one tick `[currentTime, currentTime+1)` for the
occupant `name` (App.tsx lines 243-256 and 267-280): the last entry is
extended when it carries the same label, otherwise a fresh one-tick entry
is pushed. -/
def appendTick (ganttChart : List GanttEntry) (name color : String) (currentTime : Nat) :
    List GanttEntry :=
  match ganttChart.getLast? with
  | some lastEntry =>
    if lastEntry.process == name then
      ganttChart.dropLast ++ [{ lastEntry with stop := currentTime + 1 }]
    else
      ganttChart ++ [{ process := name, start := currentTime,
                       stop := currentTime + 1, color := color }]
  | none =>
    ganttChart ++ [{ process := name, start := currentTime,
                     stop := currentTime + 1, color := color }]

/-- Timeline update and RR quantum decrement (App.tsx lines 239-282): a
running process's tick `[currentTime, currentTime+1)` is appended, or
coalesced into the last entry when it has the same occupant label; with no
current process, an IDLE segment is appended/extended only while some
not-yet-arrived process with remaining work exists. -/
def updateGantt (processes : List Process) (algorithm : String) (currentTime : Nat)
    (cur : Option Process) (qr : Nat) (ganttChart : List GanttEntry) :
    List GanttEntry × Nat :=
  match cur with
  | some c =>
    (appendTick ganttChart c.name c.color currentTime,
     if algorithm == "RR" && decide (0 < qr) then qr - 1 else qr)
  | none =>
    if processes.any fun p => decide (currentTime < p.arrival) && decide (0 < p.remaining) then
      (appendTick ganttChart idleName idleColor currentTime, qr)
    else (ganttChart, qr)

/-- Embedding of `executeSimulationStep` (App.tsx lines 130-293): the single
advance transition of the step simulator. -/
def executeSimulationStep (state : SimulationState) (processes : List Process)
    (algorithm : String) (quantum : Nat) : SimulationState :=
  let allCompleted := processes.all fun p => p.remaining == 0
  if allCompleted then { state with isRunning := false }
  else
    let newReadyQueue :=
      admitArrivals processes state.currentTime state.completedProcesses state.readyQueue
    let retired :=
      retireCurrent processes state.currentProcess state.quantumRemaining
        state.completedProcesses newReadyQueue
    let expired :=
      rrExpire processes algorithm state.quantumRemaining retired.1 retired.2.2.2
    let selected :=
      selectPhase processes algorithm quantum state.currentTime expired.1 retired.2.1
        retired.2.2.1 expired.2
    let gantt :=
      updateGantt processes algorithm state.currentTime selected.1 selected.2 state.ganttChart
    { state with
      currentTime := state.currentTime + 1
      ganttChart := gantt.1
      currentProcess := selected.1
      readyQueue := expired.2
      completedProcesses := retired.2.2.1
      quantumRemaining := gantt.2 }

/-- The RESET state of the reducer (App.tsx lines 105-114), which is also the
initial `useReducer` state (App.tsx lines 338-346). -/
def initialState : SimulationState :=
  { currentTime := 0, ganttChart := [], currentProcess := none, readyQueue := [],
    completedProcesses := [], quantumRemaining := 0, isRunning := false }

/-- One tick of the auto-run driver protocol (App.tsx lines 405-435): the
running process's live remaining time is decremented (clamped at 0 by
`Math.max`), then `executeSimulationStep` runs on the updated process list. -/
def driverStep (algorithm : String) (quantum : Nat) :
    List Process × SimulationState → List Process × SimulationState
  | (processes, s) =>
    let processes' :=
      match s.currentProcess with
      | some c =>
        processes.map fun p =>
          if p.id == c.id then { p with remaining := p.remaining - 1 } else p
      | none => processes
    (processes', executeSimulationStep s processes' algorithm quantum)

/-- Iterated driver ticks. -/
def runDriver (algorithm : String) (quantum : Nat) :
    Nat → List Process × SimulationState → List Process × SimulationState
  | 0, c => c
  | n + 1, c => runDriver algorithm quantum n (driverStep algorithm quantum c)

/-- Configurations reachable from the initial simulation state with the fixed
process set `ps0` by repeating the driver protocol. -/
inductive Reachable (ps0 : List Process) (algorithm : String) (quantum : Nat) :
    List Process × SimulationState → Prop
  | init : Reachable ps0 algorithm quantum (ps0, initialState)
  | step {c} : Reachable ps0 algorithm quantum c →
      Reachable ps0 algorithm quantum (driverStep algorithm quantum c)

/-- Process ids are pairwise distinct (the spec's data model: a process has a
unique integer id). -/
abbrev NodupIds (processes : List Process) : Prop := (processes.map Process.id).Nodup

/-! ### Basic properties of the stable sort and of `selectNext` -/

theorem length_insertLe (le : Process → Process → Bool) (x : Process) (l : List Process) :
    (insertLe le x l).length = l.length + 1 := by
  induction l with
  | nil => rfl
  | cons y ys ih => simp only [insertLe]; split <;> simp [ih]

theorem length_stableSort (le : Process → Process → Bool) (l : List Process) :
    (stableSort le l).length = l.length := by
  induction l with
  | nil => rfl
  | cons x xs ih => simp [stableSort, length_insertLe, ih]

theorem mem_insertLe {le : Process → Process → Bool} {x y : Process} {l : List Process} :
    y ∈ insertLe le x l ↔ y = x ∨ y ∈ l := by
  induction l with
  | nil => simp [insertLe]
  | cons z zs ih =>
    simp only [insertLe]
    split
    · simp
    · simp only [List.mem_cons, ih]; tauto

theorem mem_stableSort {le : Process → Process → Bool} {y : Process} {l : List Process} :
    y ∈ stableSort le l ↔ y ∈ l := by
  induction l with
  | nil => simp [stableSort]
  | cons x xs ih => simp [stableSort, mem_insertLe, ih]

/-- Earliest minimum of `x :: xs` under `le`, preferring the earlier element
on ties; this is exactly the head a stable comparator sort produces. -/
def firstMinAux (le : Process → Process → Bool) (x : Process) : List Process → Process
  | [] => x
  | y :: ys => if le x (firstMinAux le y ys) then x else firstMinAux le y ys

theorem head?_insertLe (le : Process → Process → Bool) (x : Process) (l : List Process) :
    (insertLe le x l).head? =
      some (match l with | [] => x | y :: _ => if le x y then x else y) := by
  cases l with
  | nil => rfl
  | cons y ys => simp only [insertLe]; split <;> simp_all

theorem head?_stableSort_cons (le : Process → Process → Bool) (x : Process)
    (xs : List Process) :
    (stableSort le (x :: xs)).head? = some (firstMinAux le x xs) := by
  induction xs generalizing x with
  | nil => rfl
  | cons y ys ih =>
    show (insertLe le x (stableSort le (y :: ys))).head? = _
    have hy := ih y
    cases hsort : stableSort le (y :: ys) with
    | nil => simp [hsort] at hy
    | cons m rest =>
      rw [hsort] at hy
      simp only [List.head?] at hy
      rw [head?_insertLe]
      simp only [firstMinAux]
      cases hy
      rfl

theorem firstMinAux_mem (le : Process → Process → Bool) (x : Process) (xs : List Process) :
    firstMinAux le x xs ∈ x :: xs := by
  induction xs generalizing x with
  | nil => simp [firstMinAux]
  | cons y ys ih =>
    simp only [firstMinAux]
    split
    · simp
    · have := ih y
      simp only [List.mem_cons] at this ⊢
      tauto

theorem firstMinAux_le (le : Process → Process → Bool) (x : Process) (xs : List Process)
    (tot : ∀ a ∈ x :: xs, ∀ b ∈ x :: xs, le a b = true ∨ le b a = true)
    (trans : ∀ a ∈ x :: xs, ∀ b ∈ x :: xs, ∀ c ∈ x :: xs,
      le a b = true → le b c = true → le a c = true) :
    ∀ z ∈ x :: xs, le (firstMinAux le x xs) z = true := by
  induction xs generalizing x with
  | nil =>
    intro z hz
    simp only [List.mem_singleton] at hz
    subst hz
    simpa [firstMinAux] using (tot z (by simp) z (by simp)).elim id id
  | cons y ys ih =>
    have hxmem : x ∈ x :: y :: ys := by simp
    have hmmem : firstMinAux le y ys ∈ x :: y :: ys := by
      have := firstMinAux_mem le y ys
      simp only [List.mem_cons] at this ⊢
      tauto
    have hsubtot : ∀ a ∈ y :: ys, ∀ b ∈ y :: ys, le a b = true ∨ le b a = true := by
      intro a ha b hb
      exact tot a (by simp [List.mem_cons] at ha ⊢; tauto) b
        (by simp [List.mem_cons] at hb ⊢; tauto)
    have hsubtrans : ∀ a ∈ y :: ys, ∀ b ∈ y :: ys, ∀ c ∈ y :: ys,
        le a b = true → le b c = true → le a c = true := by
      intro a ha b hb c hc
      exact trans a (by simp [List.mem_cons] at ha ⊢; tauto)
        b (by simp [List.mem_cons] at hb ⊢; tauto)
        c (by simp [List.mem_cons] at hc ⊢; tauto)
    have hih := ih y hsubtot hsubtrans
    intro z hz
    simp only [firstMinAux]
    split
    · rename_i hle
      rcases List.mem_cons.mp hz with hzx | hz'
      · subst hzx
        exact (tot z hxmem z hxmem).elim id id
      · exact trans x hxmem (firstMinAux le y ys) hmmem z hz hle
          (hih z hz')
    · rename_i hle
      rcases List.mem_cons.mp hz with hzx | hz'
      · subst hzx
        rcases tot z hxmem (firstMinAux le y ys) hmmem with h | h
        · exact absurd h hle
        · exact h
      · exact hih z hz'

theorem firstMinAux_split (le : Process → Process → Bool) (x : Process) (xs : List Process) :
    ∃ l1 l2, x :: xs = l1 ++ firstMinAux le x xs :: l2 ∧
      ∀ p ∈ l1, le p (firstMinAux le x xs) = false := by
  induction xs generalizing x with
  | nil => exact ⟨[], [], rfl, by simp⟩
  | cons y ys ih =>
    simp only [firstMinAux]
    split
    · exact ⟨[], y :: ys, rfl, by simp⟩
    · rename_i hle
      obtain ⟨l1, l2, heq, hl1⟩ := ih y
      refine ⟨x :: l1, l2, by simp [heq], ?_⟩
      intro p hp
      rcases List.mem_cons.mp hp with hpx | hp'
      · subst hpx; exact Bool.eq_false_iff.mpr hle
      · exact hl1 p hp'

theorem selectNext_mem {ps : List Process} {t : Nat} {alg : String} {m : Process}
    (h : SchedulingAlgorithms.selectNext ps t alg = some m) : m ∈ ps := by
  unfold SchedulingAlgorithms.selectNext at h
  split at h
  · exact absurd h (by simp)
  · split at h
    · exact mem_stableSort.mp (List.mem_of_mem_head? h)
    · split at h
      · exact mem_stableSort.mp (List.mem_of_mem_head? h)
      · split at h
        · exact mem_stableSort.mp (List.mem_of_mem_head? h)
        · split at h
          · exact mem_stableSort.mp (List.mem_of_mem_head? h)
          · split at h
            · exact mem_stableSort.mp (List.mem_of_mem_head? h)
            · split at h
              · exact List.mem_of_mem_head? h
              · exact List.mem_of_mem_head? h

theorem exists_head?_of_ne_nil {l : List Process} (h : l ≠ []) : ∃ m, l.head? = some m := by
  cases l with
  | nil => exact absurd rfl h
  | cons x xs => exact ⟨x, rfl⟩

theorem selectNext_isSome {ps : List Process} (t : Nat) (alg : String) (h : ps ≠ []) :
    ∃ m, SchedulingAlgorithms.selectNext ps t alg = some m := by
  unfold SchedulingAlgorithms.selectNext
  have hs : ∀ le : Process → Process → Bool, stableSort le ps ≠ [] := by
    intro le hcontra
    have := length_stableSort le ps
    rw [hcontra] at this
    exact h (List.length_eq_zero.mp this.symm)
  rw [if_neg h]
  split
  · exact exists_head?_of_ne_nil (hs _)
  · split
    · exact exists_head?_of_ne_nil (hs _)
    · split
      · exact exists_head?_of_ne_nil (hs _)
      · split
        · exact exists_head?_of_ne_nil (hs _)
        · split
          · exact exists_head?_of_ne_nil (hs _)
          · split
            · exact exists_head?_of_ne_nil h
            · exact exists_head?_of_ne_nil h

/-! ### Concrete process sets used by the scenario claims -/

/-- RR scenario process P1: arrival 0, burst 5 (spec section 8). -/
def rrP1 : Process :=
  { id := 1, name := "P1", arrival := 0, burst := 5, priority := 3, remaining := 5,
    color := "#FF6B6B" }

/-- RR scenario process P2: arrival 0, burst 5 (spec section 8). -/
def rrP2 : Process :=
  { id := 2, name := "P2", arrival := 0, burst := 5, priority := 1, remaining := 5,
    color := "#4ECDC4" }

/-- Timeline the Round-Robin quantum claim predicts for `[rrP1, rrP2]`
with quantum 2: alternation every 2 ticks. -/
def rrClaimedTimeline : List GanttEntry :=
  [{ process := "P1", start := 0, stop := 2, color := "#FF6B6B" },
   { process := "P2", start := 2, stop := 4, color := "#4ECDC4" },
   { process := "P1", start := 4, stop := 6, color := "#FF6B6B" },
   { process := "P2", start := 6, stop := 8, color := "#4ECDC4" },
   { process := "P1", start := 8, stop := 9, color := "#FF6B6B" },
   { process := "P2", start := 9, stop := 10, color := "#4ECDC4" }]

/-- SRT scenario process P1: arrival 0, burst 5 (spec section 8). -/
def srtP1 : Process :=
  { id := 1, name := "P1", arrival := 0, burst := 5, priority := 1, remaining := 5,
    color := "#FF6B6B" }

/-- SRT scenario process P2: arrival 2, burst 2 (spec section 8). -/
def srtP2 : Process :=
  { id := 2, name := "P2", arrival := 2, burst := 2, priority := 1, remaining := 2,
    color := "#4ECDC4" }

/-- Single FCFS process used to exhibit a current process that is
simultaneously in the ready queue. -/
def fcP1 : Process :=
  { id := 1, name := "P1", arrival := 0, burst := 2, priority := 1, remaining := 2,
    color := "#FF6B6B" }

/-- HRN candidate X: arrival 0, burst 4000; at time 2 its response ratio is
4002/4000 = 1.0005. -/
def hrnX : Process :=
  { id := 1, name := "X", arrival := 0, burst := 4000, priority := 1, remaining := 4000,
    color := "#FF6B6B" }

/-- HRN candidate Y: arrival 1, burst 1999; at time 2 its response ratio is
2000/1999, larger than X's ratio by 1/3998000 which is below the 0.001
tie tolerance. -/
def hrnY : Process :=
  { id := 2, name := "Y", arrival := 1, burst := 1999, priority := 1, remaining := 1999,
    color := "#4ECDC4" }

/-- SJF candidate with id 2 placed first in the queue; equal burst and equal
arrival to `sjfB`. -/
def sjfA : Process :=
  { id := 2, name := "A", arrival := 0, burst := 3, priority := 1, remaining := 3,
    color := "#FF6B6B" }

/-- SJF candidate with id 1 placed second in the queue; equal burst and equal
arrival to `sjfA`. -/
def sjfB : Process :=
  { id := 1, name := "B", arrival := 0, burst := 3, priority := 1, remaining := 3,
    color := "#4ECDC4" }

/-- Name that is none of the six known algorithm names. -/
def algUnknown : String := "XYZ"

/-! ### C2, C3: concrete end-to-end scenario runs -/

/-- C2 (code bug evaluation): for {P1: arrival 0 burst 5, P2: arrival 0
burst 5} under RR with quantum 2, the driver protocol runs to completion
with the timeline [P1:0-5, P2:5-10] and never alternates: selection
re-runs every tick under RR, reassigns the queue head and resets the
quantum to its full value, so the stored quantum remaining is always
positive at the next tick's expiry check and quantum expiry never fires.
The produced timeline differs from the alternating timeline the claim
and the spec describe. -/
theorem C2_rr_run_eval :
    (runDriver algRR 2 12 ([rrP1, rrP2], initialState)).2.ganttChart =
      [{ process := "P1", start := 0, stop := 5, color := "#FF6B6B" },
       { process := "P2", start := 5, stop := 10, color := "#4ECDC4" }] ∧
    ((runDriver algRR 2 12 ([rrP1, rrP2], initialState)).1.all
      fun p => p.remaining == 0) = true ∧
    (runDriver algRR 2 12 ([rrP1, rrP2], initialState)).2.currentTime = 10 ∧
    (runDriver algRR 2 12 ([rrP1, rrP2], initialState)).2.ganttChart ≠ rrClaimedTimeline := by
  refine ⟨by decide, by decide, by decide, by decide⟩

/-- C3 (confirmed): for {P1: arrival 0 burst 5, P2: arrival 2 burst 2}
under SRT, the driver protocol runs to completion with timeline
[P1:0-2, P2:2-4, P1:4-7]; after the third tick the current process is P2,
exhibiting the preemption at tick 2. -/
theorem C3_srt_preemption :
    (runDriver algSRT 2 10 ([srtP1, srtP2], initialState)).2.ganttChart =
      [{ process := "P1", start := 0, stop := 2, color := "#FF6B6B" },
       { process := "P2", start := 2, stop := 4, color := "#4ECDC4" },
       { process := "P1", start := 4, stop := 7, color := "#FF6B6B" }] ∧
    ((runDriver algSRT 2 10 ([srtP1, srtP2], initialState)).1.all
      fun p => p.remaining == 0) = true ∧
    (runDriver algSRT 2 10 ([srtP1, srtP2], initialState)).2.currentTime = 7 ∧
    (runDriver algSRT 2 3 ([srtP1, srtP2], initialState)).2.currentProcess = some srtP2 := by
  refine ⟨by decide, by decide, by decide, by decide⟩

/-! ### C5: termination frame property -/

/-- C5 (confirmed): when every process in the set has remaining 0 (including
the empty set), `executeSimulationStep` only clears the running flag and
leaves current time, timeline, current process, ready queue, completed set
and quantum remaining unchanged (App.tsx lines 146-150). -/
theorem C5_all_completed_frame (state : SimulationState) (processes : List Process)
    (algorithm : String) (quantum : Nat) (h : ∀ p ∈ processes, p.remaining = 0) :
    executeSimulationStep state processes algorithm quantum =
      { state with isRunning := false } := by
  unfold executeSimulationStep
  have hall : (processes.all fun p => p.remaining == 0) = true := by
    rw [List.all_eq_true]
    intro p hp
    exact beq_iff_eq.mpr (h p hp)
  simp [hall]

/-- Witness for C5 at the empty process set. -/
theorem C5_all_completed_frame_witness :
    (∀ p ∈ ([] : List Process), p.remaining = 0) ∧
      executeSimulationStep initialState [] algFCFS 2 =
        { initialState with isRunning := false } :=
  ⟨by simp, C5_all_completed_frame initialState [] algFCFS 2 (by simp)⟩

/-! ### C6: unknown algorithm fallback -/

/-- C6 (counterexample): with the unknown algorithm name "XYZ" and the
candidate list [sjfA, sjfB] (ids 2 and 1), `selectNext` returns the first
list element, whose id 2 is not the smallest id present. -/
theorem C6_counterexample :
    algUnknown ∉ knownAlgorithms ∧
    SchedulingAlgorithms.selectNext [sjfA, sjfB] 0 algUnknown = some sjfA ∧
    sjfB ∈ [sjfA, sjfB] ∧ sjfB.id < sjfA.id := by
  refine ⟨by decide, by decide, by decide, by decide⟩

/-- C6 (amended): for every non-empty candidate list and every algorithm
name other than the six known ones, `selectNext` does not fail: it returns
the first element of the candidate list unsorted (the `default` branch,
App.tsx lines 93-94), which is the ready-queue order rather than id
order. -/
theorem C6_unknown_algorithm_head (ps : List Process) (t : Nat) (alg : String)
    (hne : ps ≠ []) (hunk : alg ∉ knownAlgorithms) :
    SchedulingAlgorithms.selectNext ps t alg = ps.head? ∧
      SchedulingAlgorithms.selectNext ps t alg ≠ none := by
  simp only [knownAlgorithms, algFCFS, algSJF, algSRT, algPriority, algHRN, algRR,
    List.mem_cons, List.not_mem_nil, or_false, not_or] at hunk
  obtain ⟨h1, h2, h3, h4, h5, h6⟩ := hunk
  have hsel : SchedulingAlgorithms.selectNext ps t alg = ps.head? := by
    unfold SchedulingAlgorithms.selectNext
    rw [if_neg hne]
    simp only [beq_iff_eq, if_neg h1, if_neg h2, if_neg h3, if_neg h4, if_neg h5, if_neg h6]
  refine ⟨hsel, ?_⟩
  rw [hsel]
  obtain ⟨m, hm⟩ := exists_head?_of_ne_nil hne
  simp [hm]

/-- Witness for C6 at a concrete list and unknown name. -/
theorem C6_unknown_algorithm_head_witness :
    ([sjfA, sjfB] : List Process) ≠ [] ∧ algUnknown ∉ knownAlgorithms ∧
      (SchedulingAlgorithms.selectNext [sjfA, sjfB] 0 algUnknown = ([sjfA, sjfB] : List Process).head? ∧
        SchedulingAlgorithms.selectNext [sjfA, sjfB] 0 algUnknown ≠ none) :=
  ⟨by decide, by decide,
    C6_unknown_algorithm_head [sjfA, sjfB] 0 algUnknown (by decide) (by decide)⟩

/-! ### C1: the at-most-one-container invariant fails for current vs queue -/

/-- C1 (counterexample): after one driver step from the initial state with
the single process fcP1 under FCFS, the state is reachable and fcP1 is
simultaneously the current process and a member of the ready queue:
selection (App.tsx lines 201-237) assigns a queue member to the current
slot without removing it from the queue. -/
theorem C1_counterexample :
    Reachable [fcP1] algFCFS 2 (runDriver algFCFS 2 1 ([fcP1], initialState)) ∧
    (runDriver algFCFS 2 1 ([fcP1], initialState)).2.currentProcess = some fcP1 ∧
    fcP1 ∈ (runDriver algFCFS 2 1 ([fcP1], initialState)).2.readyQueue := by
  refine ⟨Reachable.step Reachable.init, by decide, by decide⟩

/-! ### C8: SJF ordering -/

theorem selectNext_sjf_eq (ps : List Process) (t : Nat) (h : ps ≠ []) :
    SchedulingAlgorithms.selectNext ps t algSJF = (stableSort sjfLe ps).head? := by
  unfold SchedulingAlgorithms.selectNext algSJF
  rw [if_neg h]
  rfl

theorem sjfLe_total (a b : Process) : sjfLe a b = true ∨ sjfLe b a = true := by
  simp only [sjfLe, beq_iff_eq]
  split_ifs <;> simp_all <;> omega

theorem sjfLe_trans (a b c : Process) (h1 : sjfLe a b = true) (h2 : sjfLe b c = true) :
    sjfLe a c = true := by
  simp only [sjfLe, beq_iff_eq] at *
  split_ifs at * <;> simp_all <;> omega

theorem sjfLe_true_iff (a b : Process) :
    sjfLe a b = true ↔ a.burst < b.burst ∨ (a.burst = b.burst ∧ a.arrival ≤ b.arrival) := by
  simp only [sjfLe, beq_iff_eq]
  split_ifs <;> (simp_all; try omega)

theorem sjfLe_false_iff (a b : Process) :
    sjfLe a b = false ↔ b.burst < a.burst ∨ (a.burst = b.burst ∧ b.arrival < a.arrival) := by
  rw [← Bool.not_eq_true, sjfLe_true_iff]
  constructor
  · intro h; omega
  · intro h; omega

/-- C8 (counterexample): with candidates [sjfA, sjfB] of equal burst and
equal arrival, where sjfA (first in the list) has id 2 and sjfB has id 1,
SJF selection returns sjfA: the stable sort leaves equal-key elements in
list order, so the deeper tie is broken by queue position, not by minimal
id. -/
theorem C8_counterexample :
    SchedulingAlgorithms.selectNext [sjfA, sjfB] 0 algSJF = some sjfA ∧
    sjfB ∈ [sjfA, sjfB] ∧ sjfA.burst = sjfB.burst ∧ sjfA.arrival = sjfB.arrival ∧
    sjfB.id < sjfA.id := by
  refine ⟨by decide, by decide, by decide, by decide, by decide⟩

/-- C8 (amended): SJF selection returns the first candidate attaining the
lexicographically minimal (burst, arrival) key: every candidate is
greater-or-equal in that order, and every candidate strictly before the
returned one in the list is strictly greater; ties on both burst and
arrival are therefore broken by candidate-list position (stable sort),
not by minimal id. -/
theorem C8_sjf_first_minimal (ps : List Process) (t : Nat) (hne : ps ≠ []) :
    ∃ m l1 l2, SchedulingAlgorithms.selectNext ps t algSJF = some m ∧
      ps = l1 ++ m :: l2 ∧
      (∀ p ∈ ps, m.burst < p.burst ∨ (m.burst = p.burst ∧ m.arrival ≤ p.arrival)) ∧
      (∀ p ∈ l1, m.burst < p.burst ∨ (m.burst = p.burst ∧ m.arrival < p.arrival)) := by
  obtain ⟨x, xs, rfl⟩ := List.exists_cons_of_ne_nil hne
  refine ⟨firstMinAux sjfLe x xs, ?_⟩
  have hsel : SchedulingAlgorithms.selectNext (x :: xs) t algSJF =
      some (firstMinAux sjfLe x xs) := by
    rw [selectNext_sjf_eq _ _ hne, head?_stableSort_cons]
  obtain ⟨l1, l2, heq, hl1⟩ := firstMinAux_split sjfLe x xs
  refine ⟨l1, l2, hsel, heq, ?_, ?_⟩
  · intro p hp
    have := firstMinAux_le sjfLe x xs
      (fun a _ b _ => sjfLe_total a b)
      (fun a _ b _ c _ => sjfLe_trans a b c) p hp
    exact (sjfLe_true_iff _ _).mp this
  · intro p hp
    have := (sjfLe_false_iff _ _).mp (hl1 p hp)
    omega

/-- Witness for C8 at a concrete candidate list. -/
theorem C8_sjf_first_minimal_witness :
    ([sjfA, sjfB] : List Process) ≠ [] ∧
      (∃ m l1 l2, SchedulingAlgorithms.selectNext [sjfA, sjfB] 0 algSJF = some m ∧
        ([sjfA, sjfB] : List Process) = l1 ++ m :: l2 ∧
        (∀ p ∈ ([sjfA, sjfB] : List Process),
          m.burst < p.burst ∨ (m.burst = p.burst ∧ m.arrival ≤ p.arrival)) ∧
        (∀ p ∈ l1, m.burst < p.burst ∨ (m.burst = p.burst ∧ m.arrival < p.arrival))) :=
  ⟨by decide, C8_sjf_first_minimal [sjfA, sjfB] 0 (by decide)⟩

/-! ### C7: HRN response-ratio selection -/

theorem selectNext_hrn_eq (ps : List Process) (t : Nat) (h : ps ≠ []) :
    SchedulingAlgorithms.selectNext ps t algHRN = (stableSort (hrnLe t) ps).head? := by
  unfold SchedulingAlgorithms.selectNext algHRN
  rw [if_neg h]
  rfl

theorem ratAbs_sub_lt_of_eq {x y : Rat} (h : x = y) : ratAbs (x - y) < 1 / 1000 := by
  subst h
  simp only [sub_self, ratAbs]
  norm_num

/-- Separation hypothesis: any two candidate ratios are either equal or at
least the 0.001 tie tolerance apart. -/
def RatioSeparated (t : Nat) (ps : List Process) : Prop :=
  ∀ a ∈ ps, ∀ b ∈ ps,
    responseRatio t a = responseRatio t b ∨
      1 / 1000 ≤ ratAbs (responseRatio t a - responseRatio t b)

theorem hrnLe_char {t : Nat} {ps : List Process} (hsep : RatioSeparated t ps)
    {a b : Process} (ha : a ∈ ps) (hb : b ∈ ps) :
    hrnLe t a b = true ↔
      (responseRatio t b < responseRatio t a ∨
        (responseRatio t a = responseRatio t b ∧ a.arrival ≤ b.arrival)) := by
  unfold hrnLe
  rcases hsep a ha b hb with heq | hsepab
  · rw [if_pos (ratAbs_sub_lt_of_eq heq)]
    simp only [decide_eq_true_eq]
    constructor
    · intro h
      exact Or.inr ⟨heq, h⟩
    · rintro (h | ⟨_, h⟩)
      · rw [heq] at h
        exact absurd h (lt_irrefl _)
      · exact h
  · have hne : responseRatio t a ≠ responseRatio t b := by
      intro h
      have := ratAbs_sub_lt_of_eq h
      linarith
    rw [if_neg (not_lt.mpr hsepab)]
    simp only [decide_eq_true_eq]
    constructor
    · intro hle
      exact Or.inl (lt_of_le_of_ne hle fun h => hne h.symm)
    · rintro (h | ⟨heq, _⟩)
      · exact le_of_lt h
      · exact absurd heq hne

theorem responseRatio_hrnX : responseRatio 2 hrnX = 2001 / 2000 := by
  unfold responseRatio hrnX
  norm_num

theorem responseRatio_hrnY : responseRatio 2 hrnY = 2000 / 1999 := by
  unfold responseRatio hrnY
  norm_num

theorem hrnLe_X_Y : hrnLe 2 hrnX hrnY = true := by
  unfold hrnLe
  rw [if_pos]
  · show decide (hrnX.arrival ≤ hrnY.arrival) = true
    decide
  · rw [responseRatio_hrnX, responseRatio_hrnY]
    have hdiff : (2001 / 2000 - 2000 / 1999 : Rat) = -(1 / 3998000) := by norm_num
    rw [hdiff]
    unfold ratAbs
    rw [if_pos (by norm_num)]
    norm_num

/-- C7 (counterexample): at currentTime 2 with candidates [hrnX, hrnY],
hrnY's ratio 2000/1999 strictly exceeds hrnX's ratio 2001/2000, but the
difference 1/3998000 is below the 0.001 tolerance, so the comparator
tie-breaks by ascending arrival and returns hrnX — a candidate whose
response ratio is not maximal. -/
theorem C7_counterexample :
    SchedulingAlgorithms.selectNext [hrnX, hrnY] 2 algHRN = some hrnX ∧
    hrnY ∈ [hrnX, hrnY] ∧
    responseRatio 2 hrnX < responseRatio 2 hrnY := by
  refine ⟨?_, by simp, ?_⟩
  · rw [selectNext_hrn_eq _ _ (by simp)]
    simp [stableSort, insertLe, hrnLe_X_Y]
  · rw [responseRatio_hrnX, responseRatio_hrnY]
    norm_num

theorem hrnLe_total_on {t : Nat} {ps : List Process} (hsep : RatioSeparated t ps)
    {a b : Process} (ha : a ∈ ps) (hb : b ∈ ps) :
    hrnLe t a b = true ∨ hrnLe t b a = true := by
  rw [hrnLe_char hsep ha hb, hrnLe_char hsep hb ha]
  rcases lt_trichotomy (responseRatio t a) (responseRatio t b) with h | h | h
  · exact Or.inr (Or.inl h)
  · rcases Nat.le_total a.arrival b.arrival with harr | harr
    · exact Or.inl (Or.inr ⟨h, harr⟩)
    · exact Or.inr (Or.inr ⟨h.symm, harr⟩)
  · exact Or.inl (Or.inl h)

theorem hrnLe_trans_on {t : Nat} {ps : List Process} (hsep : RatioSeparated t ps)
    {a b c : Process} (ha : a ∈ ps) (hb : b ∈ ps) (hc : c ∈ ps)
    (h1 : hrnLe t a b = true) (h2 : hrnLe t b c = true) : hrnLe t a c = true := by
  rw [hrnLe_char hsep ha hb] at h1
  rw [hrnLe_char hsep hb hc] at h2
  rw [hrnLe_char hsep ha hc]
  rcases h1 with h1 | ⟨h1e, h1a⟩ <;> rcases h2 with h2 | ⟨h2e, h2a⟩
  · exact Or.inl (lt_trans h2 h1)
  · exact Or.inl (h2e ▸ h1)
  · exact Or.inl (h1e ▸ h2)
  · exact Or.inr ⟨h1e.trans h2e, le_trans h1a h2a⟩

/-- C7 (amended): whenever any two candidates' response ratios are equal or
at least 0.001 apart (so the float tolerance cannot reorder strict
ratio comparisons), HRN selection returns a member of the candidate list
whose response ratio — recomputed from the `currentTime` argument — is
maximal, and among the candidates of equal maximal ratio it has the
least arrival time. -/
theorem C7_hrn_max_ratio (ps : List Process) (t : Nat) (hne : ps ≠ [])
    (hsep : RatioSeparated t ps) :
    ∃ m, SchedulingAlgorithms.selectNext ps t algHRN = some m ∧ m ∈ ps ∧
      (∀ p ∈ ps, responseRatio t p ≤ responseRatio t m) ∧
      (∀ p ∈ ps, responseRatio t p = responseRatio t m → m.arrival ≤ p.arrival) := by
  obtain ⟨x, xs, rfl⟩ := List.exists_cons_of_ne_nil hne
  refine ⟨firstMinAux (hrnLe t) x xs, ?_, firstMinAux_mem _ _ _, ?_, ?_⟩
  · rw [selectNext_hrn_eq _ _ hne, head?_stableSort_cons]
  · intro p hp
    have hmem := firstMinAux_mem (hrnLe t) x xs
    have hle := firstMinAux_le (hrnLe t) x xs
      (fun a haa b hbb => hrnLe_total_on hsep haa hbb)
      (fun a haa b hbb c hcc => hrnLe_trans_on hsep haa hbb hcc) p hp
    rcases (hrnLe_char hsep hmem hp).mp hle with h | ⟨h, _⟩
    · exact le_of_lt h
    · exact le_of_eq h.symm
  · intro p hp heq
    have hmem := firstMinAux_mem (hrnLe t) x xs
    have hle := firstMinAux_le (hrnLe t) x xs
      (fun a haa b hbb => hrnLe_total_on hsep haa hbb)
      (fun a haa b hbb c hcc => hrnLe_trans_on hsep haa hbb hcc) p hp
    rcases (hrnLe_char hsep hmem hp).mp hle with h | ⟨_, h⟩
    · rw [heq] at h
      exact absurd h (lt_irrefl _)
    · exact h

/-- Witness for C7 at a one-candidate list. -/
theorem C7_hrn_max_ratio_witness :
    ([hrnX] : List Process) ≠ [] ∧ RatioSeparated 2 [hrnX] ∧
      (∃ m, SchedulingAlgorithms.selectNext [hrnX] 2 algHRN = some m ∧ m ∈ [hrnX] ∧
        (∀ p ∈ ([hrnX] : List Process), responseRatio 2 p ≤ responseRatio 2 m) ∧
        (∀ p ∈ ([hrnX] : List Process),
          responseRatio 2 p = responseRatio 2 m → m.arrival ≤ p.arrival)) := by
  have hsep : RatioSeparated 2 [hrnX] := by
    intro a ha b hb
    simp only [List.mem_singleton] at ha hb
    subst ha; subst hb
    exact Or.inl rfl
  exact ⟨by simp, hsep, C7_hrn_max_ratio [hrnX] 2 (by simp) hsep⟩

/-! ### Unfolding equations and phase lemmas for the step function -/

theorem executeSimulationStep_halt {state : SimulationState} {processes : List Process}
    {algorithm : String} {quantum : Nat}
    (h : (processes.all fun p => p.remaining == 0) = true) :
    executeSimulationStep state processes algorithm quantum =
      { state with isRunning := false } := by
  unfold executeSimulationStep
  rw [if_pos h]

theorem executeSimulationStep_run {state : SimulationState} {processes : List Process}
    {algorithm : String} {quantum : Nat}
    (h : (processes.all fun p => p.remaining == 0) = false) :
    executeSimulationStep state processes algorithm quantum =
      (let newReadyQueue :=
        admitArrivals processes state.currentTime state.completedProcesses state.readyQueue
       let retired :=
        retireCurrent processes state.currentProcess state.quantumRemaining
          state.completedProcesses newReadyQueue
       let expired := rrExpire processes algorithm state.quantumRemaining retired.1 retired.2.2.2
       let selected :=
        selectPhase processes algorithm quantum state.currentTime expired.1 retired.2.1
          retired.2.2.1 expired.2
       let gantt :=
        updateGantt processes algorithm state.currentTime selected.1 selected.2 state.ganttChart
       { state with
         currentTime := state.currentTime + 1
         ganttChart := gantt.1
         currentProcess := selected.1
         readyQueue := expired.2
         completedProcesses := retired.2.2.1
         quantumRemaining := gantt.2 }) := by
  unfold executeSimulationStep
  rw [if_neg (by simp [h])]

/-! ### Queue and id bookkeeping lemmas -/

theorem eq_of_nodupIds {ps : List Process} (h : NodupIds ps) {p q : Process}
    (hp : p ∈ ps) (hq : q ∈ ps) (hid : p.id = q.id) : p = q :=
  List.inj_on_of_nodup_map h hp hq hid

theorem find?_id_mem {ps : List Process} {i : Nat} {cp : Process}
    (h : (ps.find? fun p => p.id == i) = some cp) : cp ∈ ps ∧ cp.id = i := by
  refine ⟨List.mem_of_find?_eq_some h, ?_⟩
  have := List.find?_some h
  simpa using this

theorem find?_of_mem_nodup {ps : List Process} (hn : NodupIds ps) {p : Process}
    (hp : p ∈ ps) : (ps.find? fun x => x.id == p.id) = some p := by
  cases hf : ps.find? fun x => x.id == p.id with
  | none =>
    have := List.find?_eq_none.mp hf p hp
    simp at this
  | some a =>
    obtain ⟨ha, hid⟩ := find?_id_mem hf
    rw [eq_of_nodupIds hn ha hp hid]

theorem foldl_push_prefix (L : List Process) (queue : List Process) :
    ∃ e, L.foldl pushIfAbsent queue = queue ++ e := by
  induction L generalizing queue with
  | nil => exact ⟨[], by simp⟩
  | cons x L ih =>
    have h0 : ∃ e0, pushIfAbsent queue x = queue ++ e0 := by
      unfold pushIfAbsent
      split
      · exact ⟨[], by simp⟩
      · exact ⟨[x], rfl⟩
    obtain ⟨e0, he0⟩ := h0
    obtain ⟨e1, he1⟩ := ih (pushIfAbsent queue x)
    exact ⟨e0 ++ e1, by rw [List.foldl_cons, he1, he0, List.append_assoc]⟩

theorem mem_of_foldl_push {L queue : List Process} {q : Process}
    (h : q ∈ L.foldl pushIfAbsent queue) : q ∈ queue ∨ q ∈ L := by
  induction L generalizing queue with
  | nil => exact Or.inl h
  | cons x L ih =>
    rw [List.foldl_cons] at h
    rcases ih h with h' | h'
    · unfold pushIfAbsent at h'
      split at h'
      · exact Or.inl h'
      · rcases List.mem_append.mp h' with h'' | h''
        · exact Or.inl h''
        · simp only [List.mem_singleton] at h''
          exact Or.inr (h'' ▸ List.mem_cons_self x L)
    · exact Or.inr (List.mem_cons_of_mem x h')

theorem mem_foldl_push_of_mem {L queue : List Process} {q : Process}
    (h : q ∈ queue) : q ∈ L.foldl pushIfAbsent queue := by
  obtain ⟨e, he⟩ := foldl_push_prefix L queue
  rw [he]
  exact List.mem_append_left e h

theorem foldl_push_id_mem {L queue : List Process} {x : Process} (hx : x ∈ L) :
    ∃ q ∈ L.foldl pushIfAbsent queue, q.id = x.id := by
  induction L generalizing queue with
  | nil => cases hx
  | cons y L ih =>
    rw [List.foldl_cons]
    rcases List.mem_cons.mp hx with rfl | hx'
    · have hbase : ∃ q ∈ pushIfAbsent queue x, q.id = x.id := by
        unfold pushIfAbsent
        split
        · rename_i hany
          rw [List.any_eq_true] at hany
          obtain ⟨rp, hrp, hid⟩ := hany
          exact ⟨rp, hrp, by simpa using hid⟩
        · exact ⟨x, by simp, rfl⟩
      obtain ⟨q, hqm, hid⟩ := hbase
      exact ⟨q, mem_foldl_push_of_mem hqm, hid⟩
    · exact ih hx'

theorem admitArrivals_mem {ps : List Process} {t : Nat} {comp : List Nat}
    {queue : List Process} {q : Process} (h : q ∈ admitArrivals ps t comp queue) :
    q ∈ queue ∨ (q ∈ ps ∧ q.arrival = t ∧ comp.contains q.id = false ∧ 0 < q.remaining) := by
  unfold admitArrivals at h
  rcases mem_of_foldl_push h with h | h
  · exact Or.inl h
  · right
    rw [List.mem_filter] at h
    obtain ⟨hps, hpred⟩ := h
    simp only [Bool.and_eq_true, beq_iff_eq, Bool.not_eq_true', decide_eq_true_eq] at hpred
    exact ⟨hps, hpred.1.1, hpred.1.2, hpred.2⟩

theorem admitArrivals_sup {ps : List Process} {t : Nat} {comp : List Nat}
    {queue : List Process} {q : Process} (h : q ∈ queue) :
    q ∈ admitArrivals ps t comp queue :=
  mem_foldl_push_of_mem h

theorem admitArrivals_id_mem {ps : List Process} {t : Nat} {comp : List Nat}
    {queue : List Process} {p : Process} (hp : p ∈ ps) (harr : p.arrival = t)
    (hcomp : comp.contains p.id = false) (hrem : 0 < p.remaining) :
    ∃ q ∈ admitArrivals ps t comp queue, q.id = p.id := by
  unfold admitArrivals
  apply foldl_push_id_mem
  rw [List.mem_filter]
  refine ⟨hp, ?_⟩
  simp only [Bool.and_eq_true, beq_iff_eq, Bool.not_eq_true', decide_eq_true_eq]
  exact ⟨⟨harr, hcomp⟩, hrem⟩

theorem retireCurrent_cases (ps : List Process) (cur : Option Process) (qr : Nat)
    (comp : List Nat) (queue : List Process) :
    retireCurrent ps cur qr comp queue = (cur, qr, comp, queue) ∨
    (∃ c cp, cur = some c ∧ (ps.find? fun p => p.id == c.id) = some cp ∧
      cp.remaining = 0 ∧
      retireCurrent ps cur qr comp queue =
        (none, 0, comp ++ [c.id], queue.filter fun p => !(p.id == c.id))) := by
  cases cur with
  | none => exact Or.inl rfl
  | some c =>
    cases hf : ps.find? fun p => p.id == c.id with
    | none =>
      left
      simp only [retireCurrent, hf]
    | some cp =>
      by_cases hz : cp.remaining = 0
      · right
        refine ⟨c, cp, rfl, hf, hz, ?_⟩
        simp only [retireCurrent, hf]
        rw [if_pos (beq_iff_eq.mpr hz)]
      · left
        simp only [retireCurrent, hf]
        rw [if_neg (by simpa using hz)]

theorem rrExpire_cases (ps : List Process) (alg : String) (qr : Nat)
    (cur : Option Process) (queue : List Process) :
    rrExpire ps alg qr cur queue = (cur, queue) ∨
    (∃ c, cur = some c ∧
      ((rrExpire ps alg qr cur queue = (none, queue.filter fun p => !(p.id == c.id)) ∧
        ∀ x, (ps.find? fun p => p.id == c.id) = some x → x.remaining = 0) ∨
       ∃ cp, (ps.find? fun p => p.id == c.id) = some cp ∧ 0 < cp.remaining ∧
         rrExpire ps alg qr cur queue =
           (none, (queue.filter fun p => !(p.id == c.id)) ++ [cp]))) := by
  cases cur with
  | none => exact Or.inl rfl
  | some c =>
    by_cases hcond : (alg == "RR" && qr == 0 && decide (1 < queue.length)) = true
    · right
      refine ⟨c, rfl, ?_⟩
      cases hf : ps.find? fun p => p.id == c.id with
      | none =>
        left
        refine ⟨?_, ?_⟩
        · simp only [rrExpire, rrRequeue, hf]
          rw [if_pos hcond]
        · intro x hx
          cases hx
      | some cp =>
        by_cases hz : 0 < cp.remaining
        · right
          refine ⟨cp, rfl, hz, ?_⟩
          simp only [rrExpire, rrRequeue, hf]
          rw [if_pos hcond]
          rw [if_pos (by simpa using hz)]
        · left
          refine ⟨?_, ?_⟩
          · simp only [rrExpire, rrRequeue, hf]
            rw [if_pos hcond, if_neg (by simpa using hz)]
          · intro x hx
            cases hx
            omega
    · left
      simp only [rrExpire]
      rw [if_neg hcond]

theorem selectPhase_cur_cases (ps : List Process) (alg : String) (qu t : Nat)
    (cur : Option Process) (qr : Nat) (comp : List Nat) (queue : List Process) :
    (selectPhase ps alg qu t cur qr comp queue).1 = cur ∨
    (∃ n, (selectPhase ps alg qu t cur qr comp queue).1 = some n ∧ n ∈ queue ∧
      (∃ x, (ps.find? fun s => s.id == n.id) = some x ∧ 0 < x.remaining) ∧
      comp.contains n.id = false) := by
  unfold selectPhase
  by_cases henter : (cur.isNone || (cur.isSome && (alg == "SRT" || alg == "RR"))) = true
  · rw [if_pos henter]
    by_cases hlen : 0 < (availableOf ps comp queue).length
    · rw [if_pos hlen]
      have hne : availableOf ps comp queue ≠ [] := by
        intro hnil
        rw [hnil] at hlen
        simp at hlen
      obtain ⟨n, hsel⟩ := selectNext_isSome t alg hne
      by_cases hkeep :
          selKeep cur (SchedulingAlgorithms.selectNext (availableOf ps comp queue) t alg)
            alg = true
      · rw [if_pos hkeep]
        exact Or.inl rfl
      · rw [if_neg hkeep]
        right
        have hmem : n ∈ availableOf ps comp queue := selectNext_mem hsel
        unfold availableOf at hmem
        rw [List.mem_filter] at hmem
        obtain ⟨hqm, hpred⟩ := hmem
        rw [Bool.and_eq_true] at hpred
        obtain ⟨hfind, hcomp⟩ := hpred
        refine ⟨n, by rw [hsel], hqm, ?_, by simpa using hcomp⟩
        revert hfind
        cases hf : ps.find? fun s => s.id == n.id with
        | none => intro h; cases h
        | some x => intro h; exact ⟨x, rfl, by simpa using h⟩
    · rw [if_neg hlen]
      exact Or.inl rfl
  · rw [if_neg henter]
    exact Or.inl rfl

/-! ### C10: no late admission into the ready queue -/

/-- C10 (confirmed): a process of the set (distinct ids) whose arrival is
strictly before the current time, whose id is in neither the ready queue
nor the current slot, stays out of the ready queue across one advance and
is not selected as the new current process: the admission filter requires
arrival to equal the current time exactly, and every other queue insertion
re-queues the current process only. -/
theorem C10_no_late_admission (state : SimulationState) (processes : List Process)
    (algorithm : String) (quantum : Nat) (p : Process)
    (hmem : p ∈ processes) (hids : NodupIds processes)
    (harr : p.arrival < state.currentTime)
    (hq : ∀ q ∈ state.readyQueue, q.id ≠ p.id)
    (hc : ∀ c, state.currentProcess = some c → c.id ≠ p.id) :
    (∀ q ∈ (executeSimulationStep state processes algorithm quantum).readyQueue,
      q.id ≠ p.id) ∧
    (∀ c, (executeSimulationStep state processes algorithm quantum).currentProcess = some c →
      c.id ≠ p.id) := by
  cases hall : processes.all fun x => x.remaining == 0 with
  | true =>
    rw [executeSimulationStep_halt hall]
    exact ⟨hq, hc⟩
  | false =>
    rw [executeSimulationStep_run hall]
    dsimp only
    set Q1 := admitArrivals processes state.currentTime state.completedProcesses
      state.readyQueue with hQ1def
    set R := retireCurrent processes state.currentProcess state.quantumRemaining
      state.completedProcesses Q1 with hRdef
    set E := rrExpire processes algorithm state.quantumRemaining R.1 R.2.2.2 with hEdef
    have hQ1 : ∀ q ∈ Q1, q.id ≠ p.id := by
      intro q hqm
      rcases admitArrivals_mem (hQ1def ▸ hqm) with h | ⟨hps, harr', _, _⟩
      · exact hq q h
      · intro hid
        have heqp : q = p := eq_of_nodupIds hids hps hmem hid
        subst heqp
        omega
    have hRcur : ∀ c, R.1 = some c → c.id ≠ p.id := by
      rcases retireCurrent_cases processes state.currentProcess state.quantumRemaining
          state.completedProcesses Q1 with hcase | ⟨c, cp, hcur, _, _, hcase⟩
      · rw [hRdef, hcase]
        exact hc
      · rw [hRdef, hcase]
        intro c h
        cases h
    have hRq : ∀ q ∈ R.2.2.2, q.id ≠ p.id := by
      rcases retireCurrent_cases processes state.currentProcess state.quantumRemaining
          state.completedProcesses Q1 with hcase | ⟨c, cp, hcur, _, _, hcase⟩
      · rw [hRdef, hcase]
        exact hQ1
      · rw [hRdef, hcase]
        intro q hqm
        exact hQ1 q (List.mem_of_mem_filter hqm)
    have hEcur : ∀ c, E.1 = some c → c.id ≠ p.id := by
      rcases rrExpire_cases processes algorithm state.quantumRemaining R.1 R.2.2.2 with
        hcase | ⟨c, hcur, hcase⟩
      · rw [hEdef, hcase]
        exact hRcur
      · rcases hcase with ⟨hcase, -⟩ | ⟨cp, _, _, hcase⟩ <;>
          · rw [hEdef, hcase]
            intro c' h
            cases h
    have hEq : ∀ q ∈ E.2, q.id ≠ p.id := by
      rcases rrExpire_cases processes algorithm state.quantumRemaining R.1 R.2.2.2 with
        hcase | ⟨c, hcur, hcase⟩
      · rw [hEdef, hcase]
        exact hRq
      · have hcid : c.id ≠ p.id := hRcur c hcur
        rcases hcase with ⟨hcase, -⟩ | ⟨cp, hf, _, hcase⟩
        · rw [hEdef, hcase]
          intro q hqm
          exact hRq q (List.mem_of_mem_filter hqm)
        · rw [hEdef, hcase]
          intro q hqm
          rcases List.mem_append.mp hqm with h | h
          · exact hRq q (List.mem_of_mem_filter h)
          · simp only [List.mem_singleton] at h
            subst h
            rw [(find?_id_mem hf).2]
            exact hcid
    refine ⟨hEq, ?_⟩
    rcases selectPhase_cur_cases processes algorithm quantum state.currentTime E.1 R.2.1
        R.2.2.1 E.2 with hcase | ⟨n, hn, hnmem, _, _⟩
    · rw [hcase]
      exact hEcur
    · rw [hn]
      intro c h
      cases h
      exact hEq n hnmem

/-- Witness for C10 at a concrete state and process. -/
theorem C10_no_late_admission_witness :
    fcP1 ∈ [fcP1] ∧ NodupIds [fcP1] ∧
      fcP1.arrival < ({ initialState with currentTime := 5 } : SimulationState).currentTime ∧
      (∀ q ∈ ({ initialState with currentTime := 5 } : SimulationState).readyQueue,
        q.id ≠ fcP1.id) ∧
      (∀ c, ({ initialState with currentTime := 5 } : SimulationState).currentProcess = some c →
        c.id ≠ fcP1.id) ∧
      ((∀ q ∈ (executeSimulationStep { initialState with currentTime := 5 } [fcP1]
          algFCFS 2).readyQueue, q.id ≠ fcP1.id) ∧
       (∀ c, (executeSimulationStep { initialState with currentTime := 5 } [fcP1]
          algFCFS 2).currentProcess = some c → c.id ≠ fcP1.id)) :=
  ⟨by decide, by decide, by decide, by simp [initialState], by simp [initialState],
    C10_no_late_admission { initialState with currentTime := 5 } [fcP1] algFCFS 2 fcP1
      (by decide) (by decide) (by decide) (by simp [initialState]) (by simp [initialState])⟩

/-! ### Timeline chain structure -/

/-- Contiguous coverage: the entries tile `[a, t)` in order, each entry
non-empty, each starting where its predecessor stopped. -/
def GanttChain : Nat → Nat → List GanttEntry → Prop
  | a, t, [] => a = t
  | a, t, e :: es => e.start = a ∧ a < e.stop ∧ GanttChain e.stop t es

/-- No two adjacent occupant labels are equal. -/
def noDupAdjacent : List String → Prop
  | [] => True
  | [_] => True
  | a :: b :: r => a ≠ b ∧ noDupAdjacent (b :: r)

/-- Adjacent timeline entries carry distinct occupant labels. -/
def adjacentOk (g : List GanttEntry) : Prop := noDupAdjacent (g.map GanttEntry.process)

theorem ganttChain_le {a t : Nat} {g : List GanttEntry} (h : GanttChain a t g) : a ≤ t := by
  induction g generalizing a with
  | nil => exact le_of_eq h
  | cons e es ih =>
    obtain ⟨_, hlt, hch⟩ := h
    exact le_trans (le_of_lt hlt) (ih hch)

theorem ganttChain_start_ge {a t : Nat} {g : List GanttEntry} (h : GanttChain a t g) :
    ∀ x ∈ g, a ≤ x.start ∧ x.start < x.stop ∧ x.stop ≤ t := by
  induction g generalizing a with
  | nil => intro x hx; cases hx
  | cons e es ih =>
    obtain ⟨hst, hlt, hch⟩ := h
    intro x hx
    rcases List.mem_cons.mp hx with rfl | hx'
    · exact ⟨le_of_eq hst.symm, hst ▸ hlt, ganttChain_le hch⟩
    · obtain ⟨h1, h2, h3⟩ := ih hch x hx'
      omega

theorem ganttChain_pairwise {a t : Nat} {g : List GanttEntry} (h : GanttChain a t g) :
    List.Pairwise (fun x y => x.stop ≤ y.start) g := by
  induction g generalizing a with
  | nil => exact List.Pairwise.nil
  | cons e es ih =>
    obtain ⟨hst, hlt, hch⟩ := h
    refine List.Pairwise.cons ?_ (ih hch)
    intro y hy
    exact (ganttChain_start_ge hch y hy).1

theorem ganttChain_cover {a t : Nat} {g : List GanttEntry} (h : GanttChain a t g) :
    ∀ n, (a ≤ n ∧ n < t) ↔ ∃ e ∈ g, e.start ≤ n ∧ n < e.stop := by
  induction g generalizing a with
  | nil =>
    intro n
    have ha : a = t := h
    simp only [List.not_mem_nil, false_and, exists_false, iff_false]
    omega
  | cons e es ih =>
    obtain ⟨hst, hlt, hch⟩ := h
    intro n
    have hstop := ganttChain_le hch
    constructor
    · rintro ⟨han, hnt⟩
      by_cases hn : n < e.stop
      · exact ⟨e, List.mem_cons_self e es, by omega, hn⟩
      · obtain ⟨f, hf, hfr⟩ := (ih hch n).mp ⟨by omega, hnt⟩
        exact ⟨f, List.mem_cons_of_mem e hf, hfr⟩
    · rintro ⟨f, hf, hfs, hfe⟩
      rcases List.mem_cons.mp hf with rfl | hf'
      · omega
      · have := (ih hch n).mpr ⟨f, hf', hfs, hfe⟩
        omega

theorem ganttChain_concat {a t : Nat} {init : List GanttEntry} {e : GanttEntry} :
    GanttChain a t (init ++ [e]) ↔
      GanttChain a e.start init ∧ e.start < e.stop ∧ e.stop = t := by
  induction init generalizing a with
  | nil =>
    show (e.start = a ∧ a < e.stop ∧ e.stop = t) ↔ (a = e.start ∧ e.start < e.stop ∧ e.stop = t)
    constructor
    · rintro ⟨h1, h2, h3⟩; omega
    · rintro ⟨h1, h2, h3⟩; omega
  | cons f init ih =>
    show (f.start = a ∧ a < f.stop ∧ GanttChain f.stop t (init ++ [e])) ↔
      ((f.start = a ∧ a < f.stop ∧ GanttChain f.stop e.start init) ∧
        e.start < e.stop ∧ e.stop = t)
    rw [ih]
    tauto

theorem getLast?_eq_dropLast_concat {g : List GanttEntry} {e : GanttEntry}
    (h : g.getLast? = some e) : g = g.dropLast ++ [e] := by
  induction g with
  | nil => cases h
  | cons x xs ih =>
    cases xs with
    | nil =>
      simp only [List.getLast?_singleton, Option.some_inj] at h
      simp [h]
    | cons y ys =>
      rw [List.getLast?_cons_cons] at h
      have := ih h
      calc x :: y :: ys = x :: ((y :: ys).dropLast ++ [e]) := by rw [← this]
        _ = (x :: y :: ys).dropLast ++ [e] := by simp

theorem ganttChain_getLast_stop {t : Nat} {g : List GanttEntry} {e : GanttEntry}
    (h : GanttChain 0 t g) (hl : g.getLast? = some e) : e.stop = t := by
  have hdecomp := getLast?_eq_dropLast_concat hl
  rw [hdecomp] at h
  exact (ganttChain_concat.mp h).2.2

theorem getLast?_none_eq_nil {g : List GanttEntry} (h : g.getLast? = none) : g = [] := by
  cases g with
  | nil => rfl
  | cons x xs => simp at h

theorem appendTick_chain {t : Nat} {g : List GanttEntry} (hch : GanttChain 0 t g)
    (name color : String) : GanttChain 0 (t + 1) (appendTick g name color t) := by
  cases hl : g.getLast? with
  | none =>
    have hnil : g = [] := getLast?_none_eq_nil hl
    subst hnil
    simp only [appendTick, hl]
    rw [ganttChain_concat]
    exact ⟨hch, Nat.lt_succ_self t, rfl⟩
  | some lastE =>
    have hdecomp := getLast?_eq_dropLast_concat hl
    have hstop : lastE.stop = t := ganttChain_getLast_stop hch hl
    have hparts := ganttChain_concat.mp (hdecomp ▸ hch)
    simp only [appendTick, hl]
    split
    · rw [ganttChain_concat]
      refine ⟨hparts.1, ?_, rfl⟩
      show lastE.start < t + 1
      omega
    · rw [ganttChain_concat]
      exact ⟨hch, Nat.lt_succ_self t, rfl⟩

theorem noDupAdjacent_concat {L : List String} {s : String} (h : noDupAdjacent L)
    (hl : ∀ x, L.getLast? = some x → x ≠ s) : noDupAdjacent (L ++ [s]) := by
  induction L with
  | nil => trivial
  | cons x xs ih =>
    cases xs with
    | nil => exact ⟨hl x rfl, trivial⟩
    | cons y ys =>
      obtain ⟨hxy, htail⟩ := h
      refine ⟨hxy, ?_⟩
      exact ih htail fun z hz => hl z (by rw [List.getLast?_cons_cons]; exact hz)

theorem appendTick_adj {t : Nat} {g : List GanttEntry} (hadj : adjacentOk g)
    (name color : String) : adjacentOk (appendTick g name color t) := by
  cases hl : g.getLast? with
  | none =>
    have hnil : g = [] := getLast?_none_eq_nil hl
    subst hnil
    simp only [appendTick, hl]
    unfold adjacentOk noDupAdjacent
    trivial
  | some lastE =>
    simp only [appendTick, hl]
    split
    · have hdecomp := getLast?_eq_dropLast_concat hl
      unfold adjacentOk
      have hmaps :
          (g.dropLast ++ [{ lastE with stop := t + 1 }]).map GanttEntry.process =
            g.map GanttEntry.process := by
        conv_rhs => rw [hdecomp]
        simp
      rw [hmaps]
      exact hadj
    · rename_i hne
      unfold adjacentOk
      rw [List.map_append]
      refine noDupAdjacent_concat hadj ?_
      intro x hx
      have hmap : g.getLast?.map GanttEntry.process = some x := by
        rw [← List.getLast?_map]
        exact hx
      rw [hl] at hmap
      simp only [Option.map_some', Option.some_inj] at hmap
      subst hmap
      intro hcontra
      exact hne (by simp [hcontra])

theorem appendTick_shape {t : Nat} {g : List GanttEntry} (hch : GanttChain 0 t g)
    (name color : String) :
    appendTick g name color t =
      g ++ [{ process := name, start := t, stop := t + 1, color := color }] ∨
    (∃ init e, g = init ++ [e] ∧
      appendTick g name color t = init ++ [{ e with stop := e.stop + 1 }]) := by
  cases hl : g.getLast? with
  | none =>
    left
    simp [appendTick, hl]
  | some lastE =>
    simp only [appendTick, hl]
    split
    · right
      have hdecomp := getLast?_eq_dropLast_concat hl
      have hstop : lastE.stop = t := ganttChain_getLast_stop hch hl
      exact ⟨g.dropLast, lastE, hdecomp, by rw [hstop]⟩
    · left
      rfl

/-! ### The reachability invariant -/

theorem contains_false_of_not_mem {l : List Nat} {i : Nat} (h : i ∉ l) :
    l.contains i = false := by
  simpa using h

theorem not_mem_of_contains_false {l : List Nat} {i : Nat} (h : l.contains i = false) :
    i ∉ l := by
  simpa using h

theorem selectPhase_isSome_of_avail (ps : List Process) (alg : String) (qu t : Nat)
    (cur : Option Process) (qr : Nat) (comp : List Nat) (queue : List Process)
    (h : 0 < (availableOf ps comp queue).length) :
    ∃ x, (selectPhase ps alg qu t cur qr comp queue).1 = some x := by
  unfold selectPhase
  have hne : availableOf ps comp queue ≠ [] := by
    intro hnil
    rw [hnil] at h
    simp at h
  obtain ⟨m, hm⟩ := selectNext_isSome t alg hne
  by_cases henter : (cur.isNone || (cur.isSome && (alg == "SRT" || alg == "RR"))) = true
  · rw [if_pos henter, if_pos h]
    by_cases hkeep : selKeep cur
        (SchedulingAlgorithms.selectNext (availableOf ps comp queue) t alg) alg = true
    · rw [if_pos hkeep]
      cases hcur : cur with
      | none => rw [hcur] at hkeep; simp [selKeep] at hkeep
      | some c => exact ⟨c, rfl⟩
    · rw [if_neg hkeep]
      exact ⟨m, hm⟩
  · rw [if_neg henter]
    cases hcur : cur with
    | none => rw [hcur] at henter; simp at henter
    | some c => exact ⟨c, rfl⟩

/-- Inductive invariant of the driver configurations: distinct ids, every
completed id has live remaining 0, completed ids are in neither the queue
nor the current slot, every arrived unfinished process has a queue entry,
and the timeline tiles `[0, currentTime)` with no two adjacent labels
equal. -/
structure DriverInv (c : List Process × SimulationState) : Prop where
  nodup : NodupIds c.1
  completedZero : ∀ i ∈ c.2.completedProcesses, ∀ p ∈ c.1, p.id = i → p.remaining = 0
  queueComp : ∀ q ∈ c.2.readyQueue, q.id ∉ c.2.completedProcesses
  curComp : ∀ cp, c.2.currentProcess = some cp → cp.id ∉ c.2.completedProcesses
  arrivedQueued : ∀ p ∈ c.1, p.arrival < c.2.currentTime → 0 < p.remaining →
      ∃ q ∈ c.2.readyQueue, q.id = p.id
  chain : GanttChain 0 c.2.currentTime c.2.ganttChart
  adj : adjacentOk c.2.ganttChart

theorem inv_init (ps0 : List Process) (h : NodupIds ps0) : DriverInv (ps0, initialState) := by
  refine ⟨h, ?_, ?_, ?_, ?_, ?_, ?_⟩
  · intro i hi
    cases hi
  · intro q hq
    cases hq
  · intro cp hcp
    cases hcp
  · intro p _ harr
    cases harr
  · exact rfl
  · exact trivial

theorem inv_dec {ps : List Process} {s : SimulationState} (inv : DriverInv (ps, s)) :
    DriverInv ((match s.currentProcess with
          | some c => ps.map fun p =>
              if p.id == c.id then { p with remaining := p.remaining - 1 } else p
          | none => ps), s) := by
  cases hcur : s.currentProcess with
  | none => exact inv
  | some c =>
    have hmem : ∀ p' ∈ ps.map fun p =>
        if p.id == c.id then { p with remaining := p.remaining - 1 } else p,
        ∃ p ∈ ps, p'.id = p.id ∧ p'.arrival = p.arrival ∧ p'.remaining ≤ p.remaining := by
      intro p' hp'
      obtain ⟨p, hp, hp'eq⟩ := List.mem_map.mp hp'
      refine ⟨p, hp, ?_⟩
      subst hp'eq
      split <;> simp
    have hids : (ps.map fun p =>
        if p.id == c.id then { p with remaining := p.remaining - 1 } else p).map Process.id
          = ps.map Process.id := by
      rw [List.map_map]
      apply List.map_congr_left
      intro p _
      show (if p.id == c.id then { p with remaining := p.remaining - 1 } else p).id = p.id
      split <;> rfl
    refine ⟨?_, ?_, inv.queueComp, inv.curComp, ?_, inv.chain, inv.adj⟩
    · show ((ps.map _).map Process.id).Nodup
      rw [hids]
      exact inv.nodup
    · intro i hi p' hp' hid
      obtain ⟨p, hp, hpid, _, hrem⟩ := hmem p' hp'
      have := inv.completedZero i hi p hp (hpid ▸ hid)
      omega
    · intro p' hp' harr hrem
      obtain ⟨p, hp, hpid, hparr, hprem⟩ := hmem p' hp'
      obtain ⟨q, hq, hqid⟩ := inv.arrivedQueued p hp (hparr ▸ harr) (by omega)
      exact ⟨q, hq, hqid.trans hpid.symm⟩

theorem inv_exec_tail {ps : List Process} {s : SimulationState} {alg : String} {qu : Nat}
    (inv : DriverInv (ps, s))
    (hall : (ps.all fun x => x.remaining == 0) = false)
    {Rcur : Option Process} {Rqr : Nat} {Rcomp : List Nat} {Rqueue : List Process}
    (hR : retireCurrent ps s.currentProcess s.quantumRemaining s.completedProcesses
            (admitArrivals ps s.currentTime s.completedProcesses s.readyQueue)
          = (Rcur, Rqr, Rcomp, Rqueue))
    (hG1 : ∀ i ∈ Rcomp, ∀ p ∈ ps, p.id = i → p.remaining = 0)
    (hG2 : ∀ q ∈ Rqueue, q.id ∉ Rcomp)
    (hG3 : ∀ x, Rcur = some x → x.id ∉ Rcomp)
    (hG4 : ∀ p ∈ ps, p.arrival ≤ s.currentTime → 0 < p.remaining →
            ∃ q ∈ Rqueue, q.id = p.id) :
    DriverInv (ps, executeSimulationStep s ps alg qu) := by
  rw [executeSimulationStep_run hall]
  dsimp only
  rw [hR]
  dsimp only
  set E := rrExpire ps alg s.quantumRemaining Rcur Rqueue with hEdef
  set S := selectPhase ps alg qu s.currentTime E.1 Rqr Rcomp E.2 with hSdef
  have hcases := rrExpire_cases ps alg s.quantumRemaining Rcur Rqueue
  rw [← hEdef] at hcases
  have hH1 : ∀ q ∈ E.2, q.id ∉ Rcomp := by
    rcases hcases with hexp | ⟨c2, hcur2, hexp⟩
    · rw [hexp]
      exact hG2
    · rcases hexp with ⟨hexp, -⟩ | ⟨cp2, hf2, -, hexp⟩
      · rw [hexp]
        intro q hq
        exact hG2 q (List.mem_of_mem_filter hq)
      · rw [hexp]
        intro q hq
        rcases List.mem_append.mp hq with hq' | hq'
        · exact hG2 q (List.mem_of_mem_filter hq')
        · simp only [List.mem_singleton] at hq'
          subst hq'
          rw [(find?_id_mem hf2).2]
          exact hG3 c2 hcur2
  have hH2 : ∀ p ∈ ps, p.arrival ≤ s.currentTime → 0 < p.remaining →
      ∃ q ∈ E.2, q.id = p.id := by
    intro p hp harr hrem
    obtain ⟨q, hq, hqid⟩ := hG4 p hp harr hrem
    rcases hcases with hexp | ⟨c2, hcur2, hexp⟩
    · rw [hexp]
      exact ⟨q, hq, hqid⟩
    · by_cases hqc2 : q.id = c2.id
      · have hc2p : c2.id = p.id := by omega
        rcases hexp with ⟨hexp, hfzero⟩ | ⟨cp2, hf2, hpos2, hexp⟩
        · exfalso
          rw [hc2p] at hfzero
          have := hfzero p (find?_of_mem_nodup inv.nodup hp)
          omega
        · rw [hexp]
          refine ⟨cp2, List.mem_append_right _ (List.mem_singleton_self cp2), ?_⟩
          rw [(find?_id_mem hf2).2]
          exact hc2p
      · have hfilter : q ∈ Rqueue.filter fun p' => !(p'.id == c2.id) := by
          rw [List.mem_filter]
          exact ⟨hq, by simp [hqc2]⟩
        rcases hexp with ⟨hexp, -⟩ | ⟨cp2, -, -, hexp⟩
        · rw [hexp]
          exact ⟨q, hfilter, hqid⟩
        · rw [hexp]
          exact ⟨q, List.mem_append_left _ hfilter, hqid⟩
  have hH3 : ∀ x, E.1 = some x → x.id ∉ Rcomp := by
    rcases hcases with hexp | ⟨c2, hcur2, hexp⟩
    · rw [hexp]
      exact hG3
    · rcases hexp with ⟨hexp, -⟩ | ⟨cp2, -, -, hexp⟩ <;>
        · rw [hexp]
          intro x hx
          cases hx
  have hscases := selectPhase_cur_cases ps alg qu s.currentTime E.1 Rqr Rcomp E.2
  rw [← hSdef] at hscases
  have hI1 : ∀ x, S.1 = some x → x.id ∉ Rcomp := by
    rcases hscases with hsc | ⟨n, hn, hnmem, -, hncmp⟩
    · rw [hsc]
      exact hH3
    · rw [hn]
      intro x hx
      cases hx
      exact not_mem_of_contains_false hncmp
  have hI2 : S.1 = none → ∀ p ∈ ps, p.arrival ≤ s.currentTime → p.remaining = 0 := by
    intro hnone p hp harr
    by_contra hnz
    have hrem : 0 < p.remaining := Nat.pos_of_ne_zero hnz
    obtain ⟨q, hq, hqid⟩ := hH2 p hp harr hrem
    have hqavail : q ∈ availableOf ps Rcomp E.2 := by
      unfold availableOf
      rw [List.mem_filter]
      refine ⟨hq, ?_⟩
      rw [Bool.and_eq_true]
      constructor
      · rw [hqid, find?_of_mem_nodup inv.nodup hp]
        simpa using hrem
      · have hnot : p.id ∉ Rcomp := fun hmem => absurd (hG1 p.id hmem p hp rfl) (by omega)
        rw [hqid]
        simpa using hnot
    have hpos : 0 < (availableOf ps Rcomp E.2).length :=
      List.length_pos.mpr (List.ne_nil_of_mem hqavail)
    obtain ⟨x, hx⟩ :=
      selectPhase_isSome_of_avail ps alg qu s.currentTime E.1 Rqr Rcomp E.2 hpos
    rw [← hSdef, hnone] at hx
    cases hx
  have hGantt : GanttChain 0 (s.currentTime + 1)
        (updateGantt ps alg s.currentTime S.1 S.2 s.ganttChart).1 ∧
      adjacentOk (updateGantt ps alg s.currentTime S.1 S.2 s.ganttChart).1 := by
    cases hS1 : S.1 with
    | some c =>
      simp only [updateGantt]
      exact ⟨appendTick_chain inv.chain c.name c.color, appendTick_adj inv.adj c.name c.color⟩
    | none =>
      simp only [updateGantt]
      by_cases hun : (ps.any fun p =>
          decide (s.currentTime < p.arrival) && decide (0 < p.remaining)) = true
      · rw [if_pos hun]
        exact ⟨appendTick_chain inv.chain idleName idleColor,
          appendTick_adj inv.adj idleName idleColor⟩
      · exfalso
        obtain ⟨p, hp, hpr⟩ := List.all_eq_false.mp hall
        have hnz : p.remaining ≠ 0 := by simpa using hpr
        have hrem : 0 < p.remaining := Nat.pos_of_ne_zero hnz
        have harr : p.arrival ≤ s.currentTime := by
          by_contra hgt
          push_neg at hgt
          apply hun
          rw [List.any_eq_true]
          exact ⟨p, hp, by simp [hgt, hrem]⟩
        exact absurd (hI2 hS1 p hp harr) hnz
  refine ⟨inv.nodup, hG1, hH1, ?_, ?_, hGantt.1, hGantt.2⟩
  · intro cp hcp
    exact hI1 cp hcp
  · intro p hp harr hrem
    have harr' : p.arrival < s.currentTime + 1 := harr
    exact hH2 p hp (by omega) hrem

theorem inv_exec {ps : List Process} {s : SimulationState} (alg : String) (qu : Nat)
    (inv : DriverInv (ps, s)) : DriverInv (ps, executeSimulationStep s ps alg qu) := by
  cases hall : ps.all fun x => x.remaining == 0 with
  | true =>
    rw [executeSimulationStep_halt hall]
    exact ⟨inv.nodup, inv.completedZero, inv.queueComp, inv.curComp, inv.arrivedQueued,
      inv.chain, inv.adj⟩
  | false =>
    have hQ1notcomp : ∀ q ∈ admitArrivals ps s.currentTime s.completedProcesses s.readyQueue,
        q.id ∉ s.completedProcesses := by
      intro q hq
      rcases admitArrivals_mem hq with h | ⟨_, _, hcf, _⟩
      · exact inv.queueComp q h
      · exact not_mem_of_contains_false hcf
    have hQ1cover : ∀ p ∈ ps, p.arrival ≤ s.currentTime → 0 < p.remaining →
        ∃ q ∈ admitArrivals ps s.currentTime s.completedProcesses s.readyQueue,
          q.id = p.id := by
      intro p hp harr hrem
      rcases Nat.lt_or_ge p.arrival s.currentTime with hlt | hge
      · obtain ⟨q, hq, hqid⟩ := inv.arrivedQueued p hp hlt hrem
        exact ⟨q, admitArrivals_sup hq, hqid⟩
      · have heq : p.arrival = s.currentTime := by omega
        have hcf : s.completedProcesses.contains p.id = false := by
          apply contains_false_of_not_mem
          intro hmem
          have := inv.completedZero p.id hmem p hp rfl
          omega
        exact admitArrivals_id_mem hp heq hcf hrem
    rcases retireCurrent_cases ps s.currentProcess s.quantumRemaining s.completedProcesses
        (admitArrivals ps s.currentTime s.completedProcesses s.readyQueue) with
      hret | ⟨c, cp, hcur, hf, hz, hret⟩
    · exact inv_exec_tail inv hall hret inv.completedZero hQ1notcomp
        (fun x hx => inv.curComp x hx) hQ1cover
    · have hcpfacts := find?_id_mem hf
      have hpc : ∀ p ∈ ps, p.id = c.id → p = cp := by
        intro p hp hid
        exact eq_of_nodupIds inv.nodup hp hcpfacts.1 (hid.trans hcpfacts.2.symm)
      refine inv_exec_tail inv hall hret ?_ ?_ ?_ ?_
      · intro i hi p hp hid
        rcases List.mem_append.mp hi with hi' | hi'
        · exact inv.completedZero i hi' p hp hid
        · simp only [List.mem_singleton] at hi'
          subst hi'
          rw [hpc p hp hid]
          exact hz
      · intro q hq
        rw [List.mem_filter] at hq
        obtain ⟨hq1, hqpred⟩ := hq
        have hqne : q.id ≠ c.id := by simpa using hqpred
        have hqold := hQ1notcomp q hq1
        simp only [List.mem_append, List.mem_singleton]
        rintro (h | h)
        · exact hqold h
        · exact hqne h
      · intro x hx
        cases hx
      · intro p hp harr hrem
        obtain ⟨q, hq, hqid⟩ := hQ1cover p hp harr hrem
        have hqne : q.id ≠ c.id := by
          intro hqc
          have : p = cp := hpc p hp (by omega)
          subst this
          omega
        refine ⟨q, ?_, hqid⟩
        rw [List.mem_filter]
        exact ⟨hq, by simpa using hqne⟩

theorem inv_step {alg : String} {qu : Nat} {c : List Process × SimulationState}
    (inv : DriverInv c) : DriverInv (driverStep alg qu c) := by
  obtain ⟨ps, s⟩ := c
  have hdec := inv_dec inv
  cases hcur : s.currentProcess with
  | none =>
    rw [hcur] at hdec
    show DriverInv
      (let processes' :=
        match s.currentProcess with
        | some c =>
          ps.map fun p => if p.id == c.id then { p with remaining := p.remaining - 1 } else p
        | none => ps
       (processes', executeSimulationStep s processes' alg qu))
    rw [hcur]
    exact inv_exec alg qu hdec
  | some c0 =>
    rw [hcur] at hdec
    show DriverInv
      (let processes' :=
        match s.currentProcess with
        | some c =>
          ps.map fun p => if p.id == c.id then { p with remaining := p.remaining - 1 } else p
        | none => ps
       (processes', executeSimulationStep s processes' alg qu))
    rw [hcur]
    exact inv_exec alg qu hdec

theorem reachable_inv {ps0 : List Process} {alg : String} {qu : Nat}
    {c : List Process × SimulationState} (h : Reachable ps0 alg qu c)
    (hids : NodupIds ps0) : DriverInv c := by
  induction h with
  | init => exact inv_init ps0 hids
  | step _ ih => exact inv_step ih

/-! ### C1, C4, C9: reachability theorems -/

/-- C1 (amended): assuming the spec's data model of pairwise-distinct process
ids, in every reachable configuration an id in the completed set is neither
the current process's id nor the id of any ready-queue entry.  The original
claim's further part — that the current process is never simultaneously in
the ready queue — is false (see the counterexample): selection assigns a
queue member to the current slot without removing it. -/
theorem C1_completed_disjoint (ps0 : List Process) (alg : String) (qu : Nat)
    (c : List Process × SimulationState) (h : Reachable ps0 alg qu c)
    (hids : NodupIds ps0) :
    ∀ i ∈ c.2.completedProcesses,
      (∀ cp, c.2.currentProcess = some cp → cp.id ≠ i) ∧
      (∀ q ∈ c.2.readyQueue, q.id ≠ i) := by
  have inv := reachable_inv h hids
  intro i hi
  constructor
  · intro cp hcp heq
    exact inv.curComp cp hcp (heq ▸ hi)
  · intro q hq heq
    exact inv.queueComp q hq (heq ▸ hi)

/-- Witness for C1's amended theorem at a reachable configuration. -/
theorem C1_completed_disjoint_witness :
    Reachable [fcP1] algFCFS 2 (runDriver algFCFS 2 1 ([fcP1], initialState)) ∧
    NodupIds [fcP1] ∧
    (∀ i ∈ (runDriver algFCFS 2 1 ([fcP1], initialState)).2.completedProcesses,
      (∀ cp, (runDriver algFCFS 2 1 ([fcP1], initialState)).2.currentProcess = some cp →
        cp.id ≠ i) ∧
      (∀ q ∈ (runDriver algFCFS 2 1 ([fcP1], initialState)).2.readyQueue, q.id ≠ i)) :=
  ⟨Reachable.step Reachable.init, by decide,
    C1_completed_disjoint [fcP1] algFCFS 2 _ (Reachable.step Reachable.init) (by decide)⟩

/-- C4 (confirmed): in every reachable configuration (distinct process ids),
the timeline entries are pairwise disjoint in order — each entry stops no
later than the next starts — and their half-open intervals cover exactly
`[0, currentTime)`: a tick `n` lies below the current time iff some entry
contains it. -/
theorem C4_timeline_coverage (ps0 : List Process) (alg : String) (qu : Nat)
    (c : List Process × SimulationState) (h : Reachable ps0 alg qu c)
    (hids : NodupIds ps0) :
    List.Pairwise (fun a b => a.stop ≤ b.start) c.2.ganttChart ∧
    ∀ n, n < c.2.currentTime ↔ ∃ e ∈ c.2.ganttChart, e.start ≤ n ∧ n < e.stop := by
  have inv := reachable_inv h hids
  refine ⟨ganttChain_pairwise inv.chain, ?_⟩
  intro n
  have hcov := ganttChain_cover inv.chain n
  simpa using hcov

/-- Witness for C4 at a reachable configuration. -/
theorem C4_timeline_coverage_witness :
    Reachable [fcP1] algFCFS 2 (runDriver algFCFS 2 1 ([fcP1], initialState)) ∧
    NodupIds [fcP1] ∧
    (List.Pairwise (fun a b => a.stop ≤ b.start)
        (runDriver algFCFS 2 1 ([fcP1], initialState)).2.ganttChart ∧
      ∀ n, n < (runDriver algFCFS 2 1 ([fcP1], initialState)).2.currentTime ↔
        ∃ e ∈ (runDriver algFCFS 2 1 ([fcP1], initialState)).2.ganttChart,
          e.start ≤ n ∧ n < e.stop) :=
  ⟨Reachable.step Reachable.init, by decide,
    C4_timeline_coverage [fcP1] algFCFS 2 _ (Reachable.step Reachable.init) (by decide)⟩

theorem updateGantt_shape {ps : List Process} {alg : String} {t : Nat} {cur : Option Process}
    {qr : Nat} {g : List GanttEntry} (hch : GanttChain 0 t g) :
    (updateGantt ps alg t cur qr g).1 = g ∨
    (∃ nm col, (updateGantt ps alg t cur qr g).1 =
      g ++ [{ process := nm, start := t, stop := t + 1, color := col }]) ∨
    (∃ init e, g = init ++ [e] ∧
      (updateGantt ps alg t cur qr g).1 = init ++ [{ e with stop := e.stop + 1 }]) := by
  cases cur with
  | some c =>
    simp only [updateGantt]
    rcases appendTick_shape hch c.name c.color with h | ⟨init, e, hdec, h⟩
    · exact Or.inr (Or.inl ⟨c.name, c.color, h⟩)
    · exact Or.inr (Or.inr ⟨init, e, hdec, h⟩)
  | none =>
    simp only [updateGantt]
    split
    · rcases appendTick_shape hch idleName idleColor with h | ⟨init, e, hdec, h⟩
      · exact Or.inr (Or.inl ⟨idleName, idleColor, h⟩)
      · exact Or.inr (Or.inr ⟨init, e, hdec, h⟩)
    · exact Or.inl rfl

theorem gantt_step_shape {ps : List Process} {s : SimulationState} (alg : String) (qu : Nat)
    (hch : GanttChain 0 s.currentTime s.ganttChart) :
    (executeSimulationStep s ps alg qu).ganttChart = s.ganttChart ∨
    (∃ nm col, (executeSimulationStep s ps alg qu).ganttChart =
      s.ganttChart ++ [{ process := nm, start := s.currentTime,
                         stop := s.currentTime + 1, color := col }]) ∨
    (∃ init e, s.ganttChart = init ++ [e] ∧
      (executeSimulationStep s ps alg qu).ganttChart =
        init ++ [{ e with stop := e.stop + 1 }]) := by
  cases hall : ps.all fun x => x.remaining == 0 with
  | true =>
    rw [executeSimulationStep_halt hall]
    exact Or.inl rfl
  | false =>
    rw [executeSimulationStep_run hall]
    dsimp only
    exact updateGantt_shape hch

theorem driverStep_eq (alg : String) (qu : Nat) (ps : List Process) (s : SimulationState) :
    driverStep alg qu (ps, s) =
      ((match s.currentProcess with
        | some c0 => ps.map fun p =>
            if p.id == c0.id then { p with remaining := p.remaining - 1 } else p
        | none => ps),
       executeSimulationStep s
        (match s.currentProcess with
         | some c0 => ps.map fun p =>
             if p.id == c0.id then { p with remaining := p.remaining - 1 } else p
         | none => ps) alg qu) := rfl

/-- C9 (confirmed): from any reachable configuration (distinct process ids),
one advance step leaves the timeline with non-decreasing start times and no
two consecutive equal occupant labels, and the step modifies the timeline
in exactly one of three ways: it leaves it unchanged, appends one entry
covering `[currentTime, currentTime+1)`, or extends only the last entry's
stop time by 1 (all earlier entries untouched). -/
theorem C9_timeline_structure (ps0 : List Process) (alg : String) (qu : Nat)
    (c : List Process × SimulationState) (h : Reachable ps0 alg qu c)
    (hids : NodupIds ps0) :
    List.Pairwise (fun a b => a.start ≤ b.start) (driverStep alg qu c).2.ganttChart ∧
    adjacentOk (driverStep alg qu c).2.ganttChart ∧
    ((driverStep alg qu c).2.ganttChart = c.2.ganttChart ∨
     (∃ nm col, (driverStep alg qu c).2.ganttChart =
        c.2.ganttChart ++ [{ process := nm, start := c.2.currentTime,
                             stop := c.2.currentTime + 1, color := col }]) ∨
     (∃ init e, c.2.ganttChart = init ++ [e] ∧
        (driverStep alg qu c).2.ganttChart = init ++ [{ e with stop := e.stop + 1 }])) := by
  have inv := reachable_inv h hids
  have inv' := reachable_inv (Reachable.step h) hids
  refine ⟨?_, inv'.adj, ?_⟩
  · have hpw := ganttChain_pairwise inv'.chain
    have hse := ganttChain_start_ge inv'.chain
    refine List.Pairwise.imp_of_mem ?_ hpw
    intro a b ha hb hab
    have := (hse a ha).2.1
    omega
  · obtain ⟨ps, s⟩ := c
    rw [driverStep_eq]
    cases hcur : s.currentProcess with
    | none =>
      simp only [hcur]
      exact gantt_step_shape alg qu inv.chain
    | some c0 =>
      simp only [hcur]
      exact gantt_step_shape alg qu inv.chain

/-- Witness for C9 at a reachable configuration. -/
theorem C9_timeline_structure_witness :
    Reachable [fcP1] algFCFS 2 ([fcP1], initialState) ∧ NodupIds [fcP1] ∧
    (List.Pairwise (fun a b => a.start ≤ b.start)
        (driverStep algFCFS 2 ([fcP1], initialState)).2.ganttChart ∧
      adjacentOk (driverStep algFCFS 2 ([fcP1], initialState)).2.ganttChart ∧
      ((driverStep algFCFS 2 ([fcP1], initialState)).2.ganttChart =
          ([fcP1], initialState).2.ganttChart ∨
       (∃ nm col, (driverStep algFCFS 2 ([fcP1], initialState)).2.ganttChart =
          ([fcP1], initialState).2.ganttChart ++
            [{ process := nm, start := ([fcP1], initialState).2.currentTime,
               stop := ([fcP1], initialState).2.currentTime + 1, color := col }]) ∨
       (∃ init e, ([fcP1], initialState).2.ganttChart = init ++ [e] ∧
          (driverStep algFCFS 2 ([fcP1], initialState)).2.ganttChart =
            init ++ [{ e with stop := e.stop + 1 }]))) :=
  ⟨Reachable.init, by decide,
    C9_timeline_structure [fcP1] algFCFS 2 ([fcP1], initialState) Reachable.init (by decide)⟩
